/-
Verification of the indexed storage layer of cw20-atomic-swap
(contracts/cw20-atomic-swap/src/state.rs): the primary swap table keyed by
swap id, the recipient secondary index keyed by (recipient, id), and the
paginated id-listing query all_swap_ids.

The underlying byte-ordered store, the length-prefixed namespacing scheme,
the record codec and the UTF-8 id decoding are external collaborators of
that file and are modelled from the specification: segments are
length-prefixed before concatenation, range iteration is ascending and
resumes strictly after the given start key, the codec is an opaque
deterministic lossless round trip, and ids decode as UTF-8 text.
-/
import Mathlib

set_option maxHeartbeats 1000000
set_option autoImplicit false

/-- A byte string, modelled as a list of naturals. -/
abbrev Bytes := List Nat

/-- Strict byte-lexicographic order on byte strings: bytes are compared left
to right, and a shorter string that is a proper initial segment of a longer
one sorts first. -/
def bytesLt : Bytes → Bytes → Bool
  | _, [] => false
  | [], _ :: _ => true
  | a :: as, b :: bs => if a < b then true else if a = b then bytesLt as bs else false

/-- Modelled from the spec: the escrowed balance is an opaque payload to the
storage layer (native or cw20-typed); represented as uninterpreted bytes. -/
abbrev Balance := Bytes

/-- Modelled from the spec: the expiration policy is opaque to the storage
layer; represented as an uninterpreted natural. -/
abbrev Expiration := Nat

/-- The swap record stored in the primary table
(`AtomicSwap` in contracts/cw20-atomic-swap/src/state.rs). -/
structure AtomicSwap where
  hash : Bytes
  recipient : Bytes
  source : Bytes
  expires : Expiration
  balance : Balance
deriving DecidableEq, Repr

/-- Modelled from the spec: the Swap Record Codec is an opaque deterministic
lossless round trip, so a serialized value is represented by the value
itself, tagged by its table's value type. `marker n` is the serialized
form of the u64 marker constant of the recipient index. -/
inductive StoredVal where
  | swap (a : AtomicSwap)
  | marker (n : Nat)
deriving DecidableEq, Repr

/-- Modelled from the spec: the byte-ordered store, represented as an
association list from raw byte keys to stored values, kept sorted in strict
ascending byte-lexicographic key order. -/
abbrev Store := List (Bytes × StoredVal)

/-- Read the value under a key (`Storage::get`). -/
def getKV : Store → Bytes → Option StoredVal
  | [], _ => none
  | (k, v) :: rest, q => if q = k then some v else getKV rest q

/-- Write a value under a key (`Storage::set`), as ordered insertion that
replaces an existing entry with the same key. -/
def setKV : Store → Bytes → StoredVal → Store
  | [], k, v => [(k, v)]
  | (k', v') :: rest, k, v =>
    if bytesLt k k' = true then (k, v) :: (k', v') :: rest
    else if k = k' then (k, v) :: rest
    else (k', v') :: setKV rest k v

/-- The sortedness invariant of the store representation: adjacent keys are
in strict ascending byte-lexicographic order. -/
def sortedStore : Store → Bool
  | [] => true
  | [_] => true
  | e :: f :: rest => bytesLt e.1 f.1 && sortedStore (f :: rest)

/-- Modelled from the spec: length-prefix one namespace segment (a two-byte
big-endian length header followed by the segment). -/
def to_length_prefixed (ns : Bytes) : Bytes :=
  ns.length / 256 :: ns.length % 256 :: ns

/-- The raw namespace literal `b"atomic_swap"` (`PREFIX_SWAP`). -/
def PREFIX_SWAP : Bytes := [97, 116, 111, 109, 105, 99, 95, 115, 119, 97, 112]

/-- The raw namespace literal `b"asri"` (`RECIPIENT_INDEX`). -/
def RECIPIENT_INDEX : Bytes := [97, 115, 114, 105]

/-- The constant stored under every recipient-index key (`MARKER_VALUE`). -/
def MARKER_VALUE : Nat := 0

/-- Full store key of a primary-table row: the length-prefixed
`PREFIX_SWAP` namespace followed by the raw id. -/
def swapKey (id : Bytes) : Bytes := to_length_prefixed PREFIX_SWAP ++ id

/-- Key prefix of the recipient-index bucket of one recipient:
`Bucket::multilevel(&[RECIPIENT_INDEX, rec], ..)`, namespacing both
segments with length prefixes. -/
def recipientNs (rec : Bytes) : Bytes :=
  to_length_prefixed RECIPIENT_INDEX ++ to_length_prefixed rec

/-- Full store key of a recipient-index entry for `(rec, id)`: both
namespace segments length-prefixed, then the raw id. -/
def recipientKey (rec id : Bytes) : Bytes := recipientNs rec ++ id

/-- The indexed write coordinator `create_atomic_swap`: save the swap in the
primary bucket, then save the marker under the recipient-index bucket of
the swap's recipient. -/
def create_atomic_swap (s : Store) (key : Bytes) (a : AtomicSwap) : Store :=
  setKV (setKV s (swapKey key) (StoredVal.swap a))
    (recipientKey a.recipient key) (StoredVal.marker MARKER_VALUE)

/-- Apply a sequence of `create_atomic_swap` calls from left to right. -/
def runCreates : Store → List (Bytes × AtomicSwap) → Store
  | s, [] => s
  | s, (k, a) :: rest => runCreates (create_atomic_swap s k a) rest

/-- Reading via `bucket_read(PREFIX_SWAP, ..).load(id)`: read and decode the primary row
under `id`; `none` when absent (or when the stored bytes are not a swap
record, which the codec model rules out for rows this layer wrote). -/
def atomic_swaps_read_load (s : Store) (id : Bytes) : Option AtomicSwap :=
  match getKV s (swapKey id) with
  | some (StoredVal.swap a) => some a
  | _ => none

/-- A UTF-8 continuation byte (`10xxxxxx`). -/
def isCont (c : Nat) : Bool := 128 ≤ c && c ≤ 191

/-- Modelled from the spec: ids decode as UTF-8 text; this is the standard
UTF-8 well-formedness check on raw bytes (shortest-form, surrogate-free). -/
def validUtf8 : Bytes → Bool
  | [] => true
  | b :: rest =>
    if b ≤ 127 then validUtf8 rest
    else if b ≤ 193 then false
    else if b ≤ 223 then
      match rest with
      | c1 :: r => isCont c1 && validUtf8 r
      | [] => false
    else if b ≤ 239 then
      match rest with
      | c1 :: c2 :: r =>
        (if b = 224 then 160 ≤ c1 && c1 ≤ 191
         else if b = 237 then 128 ≤ c1 && c1 ≤ 159
         else isCont c1) && (isCont c2 && validUtf8 r)
      | _ => false
    else if b ≤ 244 then
      match rest with
      | c1 :: c2 :: c3 :: r =>
        (if b = 240 then 144 ≤ c1 && c1 ≤ 191
         else if b = 244 then 128 ≤ c1 && c1 ≤ 143
         else isCont c1) && (isCont c2 && (isCont c3 && validUtf8 r))
      | _ => false
    else false

/-- Modelled from the spec: `String::from_utf8` on an id's raw bytes — the
identity on valid UTF-8 byte strings (UTF-8 decoding is a bijection onto
text, so the decoded id is represented by its bytes), and the constant
invalid-utf8 error otherwise (`StdError::invalid_utf8("Parsing swap id")`). -/
def decodeId (k : Bytes) : Except String Bytes :=
  if validUtf8 k then Except.ok k else Except.error "invalid_utf8: Parsing swap id"

/-- Whether a stripped key lies past the range start: ranges resume strictly
after `start` (modelled from the spec), or from the beginning for `none`. -/
def afterStart : Option Bytes → Bytes → Bool
  | none, _ => true
  | some st, k => bytesLt st k

/-- Modelled from the spec: ascending range iteration over one namespace of
the byte-ordered store. Yields the entries whose full key extends `ns`, with
the namespace stripped from the reported key, in ascending byte order (the
store representation is key-sorted), resuming strictly after `start`. -/
def rangeKeys (s : Store) (ns : Bytes) (start : Option Bytes) :
    List (Bytes × StoredVal) :=
  (s.filter (fun e => ns.isPrefixOf e.1 && afterStart start (e.1.drop ns.length))).map
    (fun e => (e.1.drop ns.length, e.2))

/-- Decode a list of raw keys in order, stopping at the first failure
(the `collect()` over an iterator of `StdResult`s). -/
def mapDecode : List Bytes → Except String (List Bytes)
  | [] => Except.ok []
  | k :: rest =>
    match decodeId k with
    | Except.error e => Except.error e
    | Except.ok x =>
      match mapDecode rest with
      | Except.error e => Except.error e
      | Except.ok xs => Except.ok (x :: xs)

/-- The listing query `all_swap_ids`: range ascending over the primary namespace from `start`,
take at most `limit` entries, decode each raw key as UTF-8, collect. -/
def all_swap_ids (s : Store) (start : Option Bytes) (limit : Nat) :
    Except String (List Bytes) :=
  mapDecode (((rangeKeys s (to_length_prefixed PREFIX_SWAP) start).take limit).map
    Prod.fst)

/-- Ranging via `atomic_swaps_recipient_index(storage, rec).range(start, None, Ascending)`:
the entries listed under one recipient's index bucket, ascending by id. -/
def atomic_swaps_recipient_index_range (s : Store) (rec : Bytes)
    (start : Option Bytes) : List (Bytes × StoredVal) :=
  rangeKeys s (recipientNs rec) start

/-- Insert an id into an ascending duplicate-free list of ids, keeping it
ascending and duplicate-free. -/
def insertSorted (x : Bytes) : List Bytes → List Bytes
  | [] => [x]
  | y :: t =>
    if bytesLt x y = true then x :: y :: t
    else if x = y then y :: t
    else y :: insertSorted x t

/-- The ids of a list arranged in strict ascending byte-lexicographic order
(duplicates collapsed): the order the spec requires of listings. -/
def sortIds (l : List Bytes) : List Bytes :=
  l.foldl (fun acc x => insertSorted x acc) []

/-- A variant of `create_atomic_swap` with the primary-table save abstracted as a
fallible store-threading operation, to model an underlying `StdResult`
write error: a failing first save short-circuits via `?` before the
recipient-index save is reached. -/
def create_atomic_swap_with
    (psave : Store → Bytes → AtomicSwap → Option String × Store)
    (s : Store) (key : Bytes) (a : AtomicSwap) : Option String × Store :=
  match psave s key a with
  | (some e, s1) => (some e, s1)
  | (none, s1) =>
    (none, setKV s1 (recipientKey a.recipient key) (StoredVal.marker MARKER_VALUE))

/-- Number of entries of the store holding exactly the key `q`. -/
def countKey (s : Store) (q : Bytes) : Nat :=
  (s.filter (fun e => decide (e.1 = q))).length

/-- The ids of a sequence of create calls. -/
def idsOf (ops : List (Bytes × AtomicSwap)) : List Bytes := ops.map Prod.fst

/-- The key ordering invariant as a proposition on all pairs of entries. -/
def storeOrdered (s : Store) : Prop :=
  s.Pairwise (fun e f => bytesLt e.1 f.1 = true)

/-- A sample swap used in concrete instantiations (recipient `b"r"`). -/
def wSwap : AtomicSwap := ⟨[104], [114], [115], 0, []⟩

/-- A second sample swap with a different recipient (`b"t"`). -/
def wSwap2 : AtomicSwap := ⟨[104], [116], [115], 0, []⟩

/-- A store produced by two creates with ASCII ids `b"a"` and `b"b"`. -/
def wStore : Store := runCreates [] [([97], wSwap), ([98], wSwap2)]

/-- A store whose only primary row sits under the non-UTF-8 id `0xFF`. -/
def cex7Store : Store := [(swapKey [255], StoredVal.swap wSwap)]

/-- A store with a valid primary id followed by a non-UTF-8 one. -/
def w10Store : Store :=
  [(swapKey [97], StoredVal.swap wSwap), (swapKey [255], StoredVal.swap wSwap)]

theorem bytesLt_irrefl (a : Bytes) : bytesLt a a = false := by
  induction a with
  | nil => rfl
  | cons x xs ih => simp [bytesLt, ih]

theorem bytesLt_ne {a b : Bytes} (h : bytesLt a b = true) : a ≠ b := by
  intro hab
  rw [hab, bytesLt_irrefl] at h
  exact Bool.false_ne_true h

theorem bytesLt_asymm {a b : Bytes} (h : bytesLt a b = true) : bytesLt b a = false := by
  induction a generalizing b with
  | nil =>
    cases b with
    | nil => simp [bytesLt] at h
    | cons y ys => rfl
  | cons x xs ih =>
    cases b with
    | nil => simp [bytesLt] at h
    | cons y ys =>
      simp only [bytesLt] at h ⊢
      by_cases h1 : x < y
      · have h2 : ¬ y < x := by omega
        have h3 : y ≠ x := by omega
        simp [h2, h3]
      · by_cases h2 : x = y
        · subst h2
          simp only [if_neg h1, if_pos rfl] at h
          simp [Nat.lt_irrefl, ih h]
        · simp [h1, h2] at h

theorem bytesLt_trans {a b c : Bytes} (hab : bytesLt a b = true)
    (hbc : bytesLt b c = true) : bytesLt a c = true := by
  induction a generalizing b c with
  | nil =>
    cases c with
    | nil =>
      cases b with
      | nil => simp [bytesLt] at hab
      | cons y ys => simp [bytesLt] at hbc
    | cons z zs => rfl
  | cons x xs ih =>
    cases b with
    | nil => simp [bytesLt] at hab
    | cons y ys =>
      cases c with
      | nil => simp [bytesLt] at hbc
      | cons z zs =>
        simp only [bytesLt] at hab hbc ⊢
        by_cases h1 : x < y
        · by_cases h2 : y < z
          · have h5 : x < z := by omega
            simp [h5]
          · by_cases h3 : y = z
            · subst h3; simp [h1]
            · simp [h2, h3] at hbc
        · by_cases h2 : x = y
          · subst h2
            simp only [if_neg h1, if_pos rfl] at hab
            by_cases h3 : x < z
            · simp [h3]
            · by_cases h4 : x = z
              · subst h4
                simp only [if_neg h3, if_pos rfl] at hbc
                simp [h3, ih hab hbc]
              · simp [h3, h4] at hbc
          · simp [h1, h2] at hab

theorem bytesLt_connex {a b : Bytes} (h : a ≠ b) :
    bytesLt a b = true ∨ bytesLt b a = true := by
  induction a generalizing b with
  | nil =>
    cases b with
    | nil => exact absurd rfl h
    | cons y ys => left; rfl
  | cons x xs ih =>
    cases b with
    | nil => right; rfl
    | cons y ys =>
      by_cases hxy : x = y
      · subst hxy
        have hne : xs ≠ ys := fun heq => h (by rw [heq])
        rcases ih hne with h1 | h1
        · left; simp [bytesLt, h1]
        · right; simp [bytesLt, h1]
      · by_cases hlt : x < y
        · left; simp [bytesLt, hlt]
        · right
          have : y < x := by omega
          simp [bytesLt, this]

theorem bytesLt_append_left (p a b : Bytes) :
    bytesLt (p ++ a) (p ++ b) = bytesLt a b := by
  induction p with
  | nil => rfl
  | cons x xs ih => simp [bytesLt, ih]

theorem storeOrdered_of_sortedStore {s : Store} (h : sortedStore s = true) :
    storeOrdered s := by
  induction s with
  | nil => exact List.Pairwise.nil
  | cons e t ih =>
    cases t with
    | nil => exact List.pairwise_singleton _ _
    | cons f r =>
      simp only [sortedStore, Bool.and_eq_true] at h
      have hp := ih h.2
      refine List.Pairwise.cons ?_ hp
      intro g hg
      rcases List.mem_cons.mp hg with hg | hg
      · exact hg ▸ h.1
      · have hfr := (List.pairwise_cons.mp hp).1 g hg
        exact bytesLt_trans h.1 hfr

theorem getKV_setKV (s : Store) (k : Bytes) (v : StoredVal) (q : Bytes) :
    getKV (setKV s k v) q = if q = k then some v else getKV s q := by
  induction s with
  | nil => simp [setKV, getKV]
  | cons e t ih =>
    obtain ⟨p, w⟩ := e
    simp only [setKV]
    by_cases h1 : bytesLt k p = true
    · simp [if_pos h1, getKV]
    · by_cases h2 : k = p
      · subst h2
        simp only [if_neg h1, if_pos rfl, getKV]
        by_cases hq : q = k <;> simp [hq]
      · simp only [if_neg h1, if_neg h2, getKV, ih]
        by_cases hq : q = p
        · subst hq
          have hqk : q ≠ k := fun hh => h2 hh.symm
          simp [hqk]
        · simp [hq]

theorem setKV_idem (s : Store) (k : Bytes) (v : StoredVal) :
    setKV (setKV s k v) k v = setKV s k v := by
  induction s with
  | nil => simp [setKV, bytesLt_irrefl]
  | cons e t ih =>
    obtain ⟨p, w⟩ := e
    simp only [setKV]
    by_cases h1 : bytesLt k p = true
    · simp [setKV, h1, bytesLt_irrefl]
    · by_cases h2 : k = p
      · subst h2
        simp [setKV, bytesLt_irrefl, h1]
      · simp [setKV, h1, h2, ih]

theorem setKV_comm (s : Store) {k k' : Bytes} (v v' : StoredVal) (hne : k ≠ k') :
    setKV (setKV s k v) k' v' = setKV (setKV s k' v') k v := by
  have hne' : k' ≠ k := Ne.symm hne
  induction s with
  | nil =>
    rcases bytesLt_connex hne with h | h
    · simp [setKV, h, bytesLt_asymm h, hne, hne']
    · simp [setKV, h, bytesLt_asymm h, hne, hne']
  | cons e t ih =>
    obtain ⟨p, w⟩ := e
    by_cases h1 : bytesLt k p = true
    · by_cases h2 : bytesLt k' p = true
      · rcases bytesLt_connex hne with h | h
        · simp [setKV, h1, h2, h, bytesLt_asymm h, hne, hne']
        · simp [setKV, h1, h2, h, bytesLt_asymm h, hne, hne']
      · by_cases h3 : k' = p
        · subst h3
          simp [setKV, h1, h2, bytesLt_asymm h1, hne, hne']
        · have hpk : bytesLt p k' = true := by
            rcases bytesLt_connex (show p ≠ k' from fun h => h3 h.symm) with h | h
            · exact h
            · exact absurd h h2
          have hkk : bytesLt k k' = true := bytesLt_trans h1 hpk
          simp [setKV, h1, h2, h3, hkk, bytesLt_asymm hkk, hne, hne']
    · by_cases h2 : k = p
      · subst h2
        by_cases h3 : bytesLt k' k = true
        · simp [setKV, h1, h3, bytesLt_asymm h3, hne, hne', bytesLt_irrefl]
        · have hkk : bytesLt k k' = true := by
            rcases bytesLt_connex hne with h | h
            · exact h
            · exact absurd h h3
          simp [setKV, h1, h3, hne, hne', bytesLt_irrefl, bytesLt_asymm hkk]
      · have hpk : bytesLt p k = true := by
          rcases bytesLt_connex (show p ≠ k from fun h => h2 h.symm) with h | h
          · exact h
          · exact absurd h h1
        by_cases h3 : bytesLt k' p = true
        · have hkk : bytesLt k' k = true := bytesLt_trans h3 hpk
          simp [setKV, h1, h2, h3, hkk, bytesLt_asymm hkk, hne, hne']
        · by_cases h4 : k' = p
          · subst h4
            simp [setKV, h1, h2, h3, bytesLt_asymm hpk, hne, hne', bytesLt_irrefl]
          · simp [setKV, h1, h2, h3, h4, ih]

theorem mem_setKV {s : Store} {k : Bytes} {v : StoredVal} {e : Bytes × StoredVal}
    (h : e ∈ setKV s k v) : e = (k, v) ∨ e ∈ s := by
  induction s with
  | nil => simp [setKV] at h; simp [h]
  | cons f t ih =>
    obtain ⟨p, w⟩ := f
    simp only [setKV] at h
    by_cases h1 : bytesLt k p = true
    · simp only [if_pos h1] at h
      rcases List.mem_cons.mp h with h | h
      · exact Or.inl h
      · exact Or.inr h
    · by_cases h2 : k = p
      · subst h2
        simp only [if_neg h1, if_pos rfl] at h
        rcases List.mem_cons.mp h with h | h
        · exact Or.inl h
        · exact Or.inr (List.mem_cons_of_mem _ h)
      · simp only [if_neg h1, if_neg h2] at h
        rcases List.mem_cons.mp h with h | h
        · exact Or.inr (h ▸ List.mem_cons_self _ _)
        · rcases ih h with h | h
          · exact Or.inl h
          · exact Or.inr (List.mem_cons_of_mem _ h)

theorem storeOrdered_setKV {s : Store} (h : storeOrdered s) (k : Bytes)
    (v : StoredVal) : storeOrdered (setKV s k v) := by
  induction s with
  | nil => exact List.pairwise_singleton _ _
  | cons e t ih =>
    obtain ⟨p, w⟩ := e
    have hhead := (List.pairwise_cons.mp h).1
    have htail := (List.pairwise_cons.mp h).2
    simp only [setKV]
    by_cases h1 : bytesLt k p = true
    · simp only [if_pos h1]
      refine List.Pairwise.cons ?_ h
      intro g hg
      rcases List.mem_cons.mp hg with hg | hg
      · exact hg ▸ h1
      · exact bytesLt_trans h1 (hhead g hg)
    · by_cases h2 : k = p
      · subst h2
        simp only [if_neg h1, if_pos rfl]
        exact List.Pairwise.cons hhead htail
      · simp only [if_neg h1, if_neg h2]
        have hpk : bytesLt p k = true := by
          rcases bytesLt_connex (show p ≠ k from fun h => h2 h.symm) with h | h
          · exact h
          · exact absurd h h1
        refine List.Pairwise.cons ?_ (ih htail)
        intro g hg
        rcases mem_setKV hg with hg | hg
        · exact hg ▸ hpk
        · exact hhead g hg

theorem mem_of_getKV {s : Store} {q : Bytes} {v : StoredVal}
    (h : getKV s q = some v) : (q, v) ∈ s := by
  induction s with
  | nil => simp [getKV] at h
  | cons e t ih =>
    obtain ⟨p, w⟩ := e
    simp only [getKV] at h
    by_cases hq : q = p
    · simp only [if_pos hq] at h
      subst hq
      simp [← Option.some_inj.mp h]
    · simp only [if_neg hq] at h
      exact List.mem_cons_of_mem _ (ih h)

theorem getKV_of_mem {s : Store} (hs : storeOrdered s) {q : Bytes}
    {v : StoredVal} (h : (q, v) ∈ s) : getKV s q = some v := by
  induction s with
  | nil => simp at h
  | cons e t ih =>
    obtain ⟨p, w⟩ := e
    rcases List.mem_cons.mp h with h | h
    · have h1 : q = p := congrArg Prod.fst h
      have h2 : v = w := congrArg Prod.snd h
      simp [getKV, h1, h2]
    · have hq : q ≠ p := by
        intro hq
        have := (List.pairwise_cons.mp hs).1 (q, v) h
        exact bytesLt_ne (hq ▸ this) rfl
      simp only [getKV, if_neg hq]
      exact ih (List.pairwise_cons.mp hs).2 h

theorem countKey_eq_one {s : Store} (hs : storeOrdered s) {q : Bytes}
    {v : StoredVal} (h : getKV s q = some v) : countKey s q = 1 := by
  induction s with
  | nil => simp [getKV] at h
  | cons e t ih =>
    obtain ⟨p, w⟩ := e
    simp only [getKV] at h
    by_cases hq : q = p
    · subst hq
      have hnil : t.filter (fun f => decide (f.1 = q)) = [] := by
        refine List.filter_eq_nil_iff.mpr ?_
        intro f hf
        have hlt := (List.pairwise_cons.mp hs).1 f hf
        simp only [decide_eq_true_eq]
        exact fun hfq => bytesLt_ne hlt hfq.symm
      simp [countKey, List.filter_cons, hnil]
    · simp only [if_neg hq] at h
      have htl := ih (List.pairwise_cons.mp hs).2 h
      have hd : decide (p = q) = false := decide_eq_false (fun hh => hq hh.symm)
      simp only [countKey, List.filter_cons, hd] at htl ⊢
      simpa using htl

theorem countKey_eq_zero {s : Store} {q : Bytes}
    (h : getKV s q = none) : countKey s q = 0 := by
  induction s with
  | nil => rfl
  | cons e t ih =>
    obtain ⟨p, w⟩ := e
    simp only [getKV] at h
    by_cases hq : q = p
    · simp [hq] at h
    · simp only [if_neg hq] at h
      have hd : decide (p = q) = false := decide_eq_false (fun hh => hq hh.symm)
      have htl := ih h
      simp only [countKey, List.filter_cons, hd] at htl ⊢
      simpa using htl

theorem isPrefixOf_append (ns x : Bytes) : ns.isPrefixOf (ns ++ x) = true := by
  induction ns with
  | nil => simp [List.isPrefixOf]
  | cons a as ih => simp [List.isPrefixOf, ih]

theorem append_drop_of_isPrefixOf {ns q : Bytes} (h : ns.isPrefixOf q = true) :
    ns ++ q.drop ns.length = q := by
  induction ns generalizing q with
  | nil => simp
  | cons a as ih =>
    cases q with
    | nil => simp [List.isPrefixOf] at h
    | cons b bs =>
      simp only [List.isPrefixOf, Bool.and_eq_true, beq_iff_eq] at h
      simp [h.1, ih h.2]

theorem isPrefixOf_append_left (a b c : Bytes) :
    (a ++ b).isPrefixOf (a ++ c) = b.isPrefixOf c := by
  induction a with
  | nil => simp
  | cons x xs ih => simp [List.isPrefixOf, ih]

theorem eq_of_isPrefixOf_length {a b c : Bytes}
    (h : a.isPrefixOf (b ++ c) = true) (hl : a.length = b.length) : a = b := by
  induction a generalizing b c with
  | nil =>
    cases b with
    | nil => rfl
    | cons y ys => simp at hl
  | cons x xs ih =>
    cases b with
    | nil => simp at hl
    | cons y ys =>
      simp only [List.cons_append, List.isPrefixOf, Bool.and_eq_true,
        beq_iff_eq] at h
      simp only [List.length_cons, Nat.add_right_cancel_iff] at hl
      simp [h.1, ih h.2 hl]

theorem lp_append_inj {a b x y : Bytes}
    (h : to_length_prefixed a ++ x = to_length_prefixed b ++ y) :
    a = b ∧ x = y := by
  simp only [to_length_prefixed, List.cons_append] at h
  injection h with h1 h2
  injection h2 with h2 h3
  have hlen : a.length = b.length := by omega
  exact List.append_inj h3 hlen

theorem swapKey_inj {a b : Bytes} (h : swapKey a = swapKey b) : a = b := by
  simp only [swapKey] at h
  exact List.append_cancel_left h

theorem recipientKey_inj {r1 i1 r2 i2 : Bytes}
    (h : recipientKey r1 i1 = recipientKey r2 i2) : r1 = r2 ∧ i1 = i2 := by
  simp only [recipientKey, recipientNs, List.append_assoc] at h
  exact lp_append_inj (List.append_cancel_left h)

theorem swapKey_ne_recipientKey (i r i' : Bytes) :
    swapKey i ≠ recipientKey r i' := by
  intro h
  simp only [swapKey, recipientKey, recipientNs, to_length_prefixed, PREFIX_SWAP,
    RECIPIENT_INDEX, List.cons_append, List.append_assoc] at h
  injection h with h1 h2
  injection h2 with h2 h3
  simp at h2

theorem swapNs_not_isPrefixOf_recipientKey (r i : Bytes) :
    (to_length_prefixed PREFIX_SWAP).isPrefixOf (recipientKey r i) = false := by
  simp [to_length_prefixed, PREFIX_SWAP, recipientKey, recipientNs,
    RECIPIENT_INDEX, List.isPrefixOf]

theorem recipientNs_not_isPrefixOf_swapKey (r i : Bytes) :
    (recipientNs r).isPrefixOf (swapKey i) = false := by
  simp [to_length_prefixed, PREFIX_SWAP, swapKey, recipientNs, RECIPIENT_INDEX,
    List.isPrefixOf]

theorem recipientNs_not_isPrefixOf_recipientKey {r r' : Bytes} (i : Bytes)
    (hne : r ≠ r') : (recipientNs r).isPrefixOf (recipientKey r' i) = false := by
  by_contra hb
  have h : (recipientNs r).isPrefixOf (recipientKey r' i) = true := by
    cases hc : (recipientNs r).isPrefixOf (recipientKey r' i)
    · exact absurd hc hb
    · rfl
  simp only [recipientNs, recipientKey, List.append_assoc,
    isPrefixOf_append_left] at h
  simp only [to_length_prefixed, List.cons_append, List.isPrefixOf,
    Bool.and_eq_true, beq_iff_eq] at h
  obtain ⟨hd, hm, hp⟩ := h
  have hlen : r.length = r'.length := by omega
  exact hne (eq_of_isPrefixOf_length hp hlen)

theorem drop_append_self (ns k : Bytes) : (ns ++ k).drop ns.length = k :=
  List.append_cancel_left (append_drop_of_isPrefixOf (isPrefixOf_append ns k))

theorem mem_rangeKeys {s : Store} {ns : Bytes} {st : Option Bytes}
    {k : Bytes} {v : StoredVal} :
    (k, v) ∈ rangeKeys s ns st ↔ ((ns ++ k, v) ∈ s ∧ afterStart st k = true) := by
  constructor
  · intro h
    simp only [rangeKeys, List.mem_map] at h
    obtain ⟨e, he, heq⟩ := h
    have hmem := List.mem_filter.mp he
    have hpred := hmem.2
    simp only [Bool.and_eq_true] at hpred
    have hk : e.1.drop ns.length = k := congrArg Prod.fst heq
    have hv : e.2 = v := congrArg Prod.snd heq
    have hfull : ns ++ k = e.1 := by
      rw [← hk]; exact append_drop_of_isPrefixOf hpred.1
    constructor
    · rw [hfull, ← hv]
      simpa using hmem.1
    · rw [← hk]; exact hpred.2
  · rintro ⟨hmem, hst⟩
    simp only [rangeKeys, List.mem_map]
    refine ⟨(ns ++ k, v), List.mem_filter.mpr ⟨hmem, ?_⟩, ?_⟩
    · simp only [Bool.and_eq_true]
      exact ⟨isPrefixOf_append ns k, by simpa [drop_append_self] using hst⟩
    · simp [drop_append_self]

theorem rangeKeys_pairwise {s : Store} (hs : storeOrdered s) (ns : Bytes)
    (st : Option Bytes) :
    (rangeKeys s ns st).Pairwise (fun e f => bytesLt e.1 f.1 = true) := by
  have hfil : storeOrdered (s.filter
      (fun e => ns.isPrefixOf e.1 && afterStart st (e.1.drop ns.length))) :=
    List.Pairwise.sublist (List.filter_sublist s) hs
  rw [rangeKeys, List.pairwise_map]
  refine List.Pairwise.imp_of_mem ?_ hfil
  intro e f he hf hlt
  have hpe : ns.isPrefixOf e.1 = true := by
    have := (List.mem_filter.mp he).2
    simp only [Bool.and_eq_true] at this
    exact this.1
  have hpf : ns.isPrefixOf f.1 = true := by
    have := (List.mem_filter.mp hf).2
    simp only [Bool.and_eq_true] at this
    exact this.1
  have he1 : ns ++ e.1.drop ns.length = e.1 := append_drop_of_isPrefixOf hpe
  have hf1 : ns ++ f.1.drop ns.length = f.1 := append_drop_of_isPrefixOf hpf
  rw [← he1, ← hf1, bytesLt_append_left] at hlt
  exact hlt

theorem rangeKeys_some_eq_filter (s : Store) (ns : Bytes) (x : Bytes) :
    rangeKeys s ns (some x) =
      (rangeKeys s ns none).filter (fun e => bytesLt x e.1) := by
  induction s with
  | nil => rfl
  | cons e t ih =>
    simp only [rangeKeys, afterStart, Bool.and_true] at ih ⊢
    by_cases hp : ns.isPrefixOf e.1 = true
    · by_cases hx : bytesLt x (e.1.drop ns.length) = true
      · simp [List.filter_cons, hp, hx, ih]
      · simp [List.filter_cons, hp, hx, ih]
    · simp [List.filter_cons, hp, ih]

theorem sorted_eq_of_mem {l l' : List Bytes}
    (hl : l.Pairwise (fun a b => bytesLt a b = true))
    (hl' : l'.Pairwise (fun a b => bytesLt a b = true))
    (hmem : ∀ x, x ∈ l ↔ x ∈ l') : l = l' := by
  induction l generalizing l' with
  | nil =>
    cases l' with
    | nil => rfl
    | cons b t' =>
      exact absurd ((hmem b).mpr (List.mem_cons_self b t')) (List.not_mem_nil b)
  | cons a t ih =>
    cases l' with
    | nil => exact absurd ((hmem a).mp (List.mem_cons_self a t)) (List.not_mem_nil a)
    | cons b t' =>
      have hab : a = b := by
        by_contra hne
        have ha : a ∈ b :: t' := (hmem a).mp (List.mem_cons_self a t)
        have hb : b ∈ a :: t := (hmem b).mpr (List.mem_cons_self b t')
        rcases List.mem_cons.mp ha with h | h
        · exact hne h
        · rcases List.mem_cons.mp hb with h2 | h2
          · exact hne h2.symm
          · have h3 := (List.pairwise_cons.mp hl').1 a h
            have h4 := (List.pairwise_cons.mp hl).1 b h2
            rw [bytesLt_asymm h3] at h4
            exact Bool.false_ne_true h4
      subst hab
      have htt : ∀ x, x ∈ t ↔ x ∈ t' := by
        intro x
        constructor
        · intro hx
          have hxl : x ∈ a :: t' := (hmem x).mp (List.mem_cons_of_mem a hx)
          rcases List.mem_cons.mp hxl with h | h
          · subst h
            have := (List.pairwise_cons.mp hl).1 x hx
            exact absurd rfl (bytesLt_ne this)
          · exact h
        · intro hx
          have hxl : x ∈ a :: t := (hmem x).mpr (List.mem_cons_of_mem a hx)
          rcases List.mem_cons.mp hxl with h | h
          · subst h
            have := (List.pairwise_cons.mp hl').1 x hx
            exact absurd rfl (bytesLt_ne this)
          · exact h
      rw [ih (List.pairwise_cons.mp hl).2 (List.pairwise_cons.mp hl').2 htt]

theorem mem_insertSorted {x y : Bytes} {l : List Bytes} :
    y ∈ insertSorted x l ↔ y = x ∨ y ∈ l := by
  induction l with
  | nil => simp [insertSorted]
  | cons z t ih =>
    simp only [insertSorted]
    by_cases h1 : bytesLt x z = true
    · rw [if_pos h1]
      constructor
      · intro h
        rcases List.mem_cons.mp h with h | h
        · exact Or.inl h
        · exact Or.inr h
      · intro h
        rcases h with h | h
        · exact List.mem_cons.mpr (Or.inl h)
        · exact List.mem_cons_of_mem _ h
    · rw [if_neg h1]
      by_cases h2 : x = z
      · rw [if_pos h2, h2]
        constructor
        · intro h
          exact Or.inr h
        · intro h
          rcases h with h | h
          · exact List.mem_cons.mpr (Or.inl h)
          · exact h
      · rw [if_neg h2]
        constructor
        · intro h
          rcases List.mem_cons.mp h with h | h
          · exact Or.inr (List.mem_cons.mpr (Or.inl h))
          · rcases ih.mp h with h3 | h3
            · exact Or.inl h3
            · exact Or.inr (List.mem_cons_of_mem _ h3)
        · intro h
          rcases h with h | h
          · exact List.mem_cons_of_mem _ (ih.mpr (Or.inl h))
          · rcases List.mem_cons.mp h with h3 | h3
            · exact List.mem_cons.mpr (Or.inl h3)
            · exact List.mem_cons_of_mem _ (ih.mpr (Or.inr h3))

theorem pairwise_insertSorted {l : List Bytes}
    (h : l.Pairwise (fun a b => bytesLt a b = true)) (x : Bytes) :
    (insertSorted x l).Pairwise (fun a b => bytesLt a b = true) := by
  induction l with
  | nil => exact List.pairwise_singleton _ _
  | cons z t ih =>
    have hhead := (List.pairwise_cons.mp h).1
    have htail := (List.pairwise_cons.mp h).2
    simp only [insertSorted]
    by_cases h1 : bytesLt x z = true
    · simp only [if_pos h1]
      refine List.Pairwise.cons ?_ h
      intro g hg
      rcases List.mem_cons.mp hg with hg | hg
      · exact hg ▸ h1
      · exact bytesLt_trans h1 (hhead g hg)
    · by_cases h2 : x = z
      · subst h2
        simpa [h1] using h
      · have hzx : bytesLt z x = true := by
          rcases bytesLt_connex (show z ≠ x from fun hh => h2 hh.symm) with hh | hh
          · exact hh
          · exact absurd hh h1
        simp only [if_neg h1, if_neg h2]
        refine List.Pairwise.cons ?_ (ih htail)
        intro g hg
        rcases mem_insertSorted.mp hg with hg | hg
        · exact hg ▸ hzx
        · exact hhead g hg

theorem sortIds_loop_pairwise (l : List Bytes) (acc : List Bytes)
    (hacc : acc.Pairwise (fun a b => bytesLt a b = true)) :
    (l.foldl (fun acc x => insertSorted x acc) acc).Pairwise
      (fun a b => bytesLt a b = true) := by
  induction l generalizing acc with
  | nil => simpa using hacc
  | cons x t ih => exact ih _ (pairwise_insertSorted hacc x)

theorem pairwise_sortIds (l : List Bytes) :
    (sortIds l).Pairwise (fun a b => bytesLt a b = true) :=
  sortIds_loop_pairwise l [] List.Pairwise.nil

theorem sortIds_loop_mem (l : List Bytes) (acc : List Bytes) (y : Bytes) :
    y ∈ l.foldl (fun acc x => insertSorted x acc) acc ↔ y ∈ acc ∨ y ∈ l := by
  induction l generalizing acc with
  | nil => simp
  | cons x t ih =>
    simp only [List.foldl_cons, ih, mem_insertSorted, List.mem_cons]
    tauto

theorem mem_sortIds {l : List Bytes} {y : Bytes} : y ∈ sortIds l ↔ y ∈ l := by
  simp [sortIds, sortIds_loop_mem]

theorem getKV_create (s : Store) (k : Bytes) (a : AtomicSwap) (q : Bytes) :
    getKV (create_atomic_swap s k a) q =
      if q = recipientKey a.recipient k then some (StoredVal.marker MARKER_VALUE)
      else if q = swapKey k then some (StoredVal.swap a)
      else getKV s q := by
  simp [create_atomic_swap, getKV_setKV]

theorem storeOrdered_create {s : Store} (hs : storeOrdered s) (k : Bytes)
    (a : AtomicSwap) : storeOrdered (create_atomic_swap s k a) :=
  storeOrdered_setKV (storeOrdered_setKV hs _ _) _ _

theorem storeOrdered_runCreates {s : Store} (hs : storeOrdered s)
    (ops : List (Bytes × AtomicSwap)) : storeOrdered (runCreates s ops) := by
  induction ops generalizing s with
  | nil => exact hs
  | cons p t ih =>
    obtain ⟨k, a⟩ := p
    exact ih (storeOrdered_create hs k a)

theorem getKV_runCreates_untouched {ops : List (Bytes × AtomicSwap)} {q : Bytes}
    (h : ∀ p ∈ ops, q ≠ swapKey p.1 ∧ q ≠ recipientKey p.2.recipient p.1)
    (s : Store) : getKV (runCreates s ops) q = getKV s q := by
  induction ops generalizing s with
  | nil => rfl
  | cons p t ih =>
    obtain ⟨k, a⟩ := p
    have hp := h (k, a) (List.mem_cons_self _ _)
    simp only [runCreates]
    rw [ih (fun p hp' => h p (List.mem_cons_of_mem _ hp')), getKV_create]
    simp [hp.1, hp.2]

theorem getKV_runCreates_swap_mem {ops : List (Bytes × AtomicSwap)}
    (hnd : (idsOf ops).Nodup) {id : Bytes} {a : AtomicSwap}
    (hmem : (id, a) ∈ ops) (s : Store) :
    getKV (runCreates s ops) (swapKey id) = some (StoredVal.swap a) := by
  induction ops generalizing s with
  | nil => simp at hmem
  | cons p t ih =>
    obtain ⟨k, b⟩ := p
    have hnd' : k ∉ idsOf t ∧ (idsOf t).Nodup := by
      simpa [idsOf] using hnd
    simp only [runCreates]
    rcases List.mem_cons.mp hmem with h | h
    · have hk : id = k := congrArg Prod.fst h
      have hb : a = b := congrArg Prod.snd h
      subst hk
      subst hb
      rw [getKV_runCreates_untouched]
      · rw [getKV_create]
        rw [if_neg (swapKey_ne_recipientKey id a.recipient id), if_pos rfl]
      · intro p hp
        refine ⟨?_, swapKey_ne_recipientKey id p.2.recipient p.1⟩
        intro hc
        have := swapKey_inj hc
        exact hnd'.1 (this ▸ List.mem_map_of_mem Prod.fst hp)
    · exact ih hnd'.2 h _

theorem getKV_runCreates_marker_mem {ops : List (Bytes × AtomicSwap)}
    (hnd : (idsOf ops).Nodup) {id : Bytes} {a : AtomicSwap}
    (hmem : (id, a) ∈ ops) (s : Store) :
    getKV (runCreates s ops) (recipientKey a.recipient id) =
      some (StoredVal.marker MARKER_VALUE) := by
  induction ops generalizing s with
  | nil => simp at hmem
  | cons p t ih =>
    obtain ⟨k, b⟩ := p
    have hnd' : k ∉ idsOf t ∧ (idsOf t).Nodup := by
      simpa [idsOf] using hnd
    simp only [runCreates]
    rcases List.mem_cons.mp hmem with h | h
    · have hk : id = k := congrArg Prod.fst h
      have hb : a = b := congrArg Prod.snd h
      subst hk
      subst hb
      rw [getKV_runCreates_untouched]
      · rw [getKV_create, if_pos rfl]
      · intro p hp
        refine ⟨fun hc => swapKey_ne_recipientKey p.1 a.recipient id hc.symm, ?_⟩
        intro hc
        have := (recipientKey_inj hc).2
        exact hnd'.1 (this ▸ List.mem_map_of_mem Prod.fst hp)
    · exact ih hnd'.2 h _

theorem getKV_runCreates_swap_inv {ops : List (Bytes × AtomicSwap)} {s : Store}
    {id : Bytes} {v : StoredVal}
    (h : getKV (runCreates s ops) (swapKey id) = some v) :
    (∃ a, v = StoredVal.swap a ∧ (id, a) ∈ ops) ∨ getKV s (swapKey id) = some v := by
  induction ops generalizing s with
  | nil => exact Or.inr h
  | cons p t ih =>
    obtain ⟨k, b⟩ := p
    simp only [runCreates] at h
    rcases ih h with hcase | hcase
    · obtain ⟨a, hv, hmem⟩ := hcase
      exact Or.inl ⟨a, hv, List.mem_cons_of_mem _ hmem⟩
    · rw [getKV_create, if_neg (swapKey_ne_recipientKey id b.recipient k)] at hcase
      by_cases h2 : swapKey id = swapKey k
      · have hk : id = k := swapKey_inj h2
        rw [if_pos h2] at hcase
        refine Or.inl ⟨b, (Option.some_inj.mp hcase).symm, ?_⟩
        rw [hk]
        exact List.mem_cons_self _ _
      · rw [if_neg h2] at hcase
        exact Or.inr hcase

theorem getKV_runCreates_marker_inv {ops : List (Bytes × AtomicSwap)} {s : Store}
    {rec id : Bytes} {v : StoredVal}
    (h : getKV (runCreates s ops) (recipientKey rec id) = some v) :
    (∃ a, a.recipient = rec ∧ (id, a) ∈ ops ∧ v = StoredVal.marker MARKER_VALUE) ∨
      getKV s (recipientKey rec id) = some v := by
  induction ops generalizing s with
  | nil => exact Or.inr h
  | cons p t ih =>
    obtain ⟨k, b⟩ := p
    simp only [runCreates] at h
    rcases ih h with hcase | hcase
    · obtain ⟨a, hr, hmem, hv⟩ := hcase
      exact Or.inl ⟨a, hr, List.mem_cons_of_mem _ hmem, hv⟩
    · rw [getKV_create] at hcase
      by_cases h1 : recipientKey rec id = recipientKey b.recipient k
      · obtain ⟨hr, hk⟩ := recipientKey_inj h1
        rw [if_pos h1] at hcase
        refine Or.inl ⟨b, hr.symm, ?_, (Option.some_inj.mp hcase).symm⟩
        rw [hk]
        exact List.mem_cons_self _ _
      · rw [if_neg h1,
          if_neg (fun hc => swapKey_ne_recipientKey k rec id hc.symm)] at hcase
        exact Or.inr hcase

theorem mapDecode_ok_of_valid {l : List Bytes}
    (h : ∀ x ∈ l, validUtf8 x = true) : mapDecode l = Except.ok l := by
  induction l with
  | nil => rfl
  | cons k t ih =>
    have hk := h k (List.mem_cons_self _ _)
    simp [mapDecode, decodeId, hk, ih (fun x hx => h x (List.mem_cons_of_mem _ hx))]

theorem mapDecode_ok_inv {l l' : List Bytes} (h : mapDecode l = Except.ok l') :
    l' = l ∧ ∀ x ∈ l, validUtf8 x = true := by
  induction l generalizing l' with
  | nil =>
    simp only [mapDecode] at h
    injection h with h
    exact ⟨h.symm, by simp⟩
  | cons k t ih =>
    by_cases hk : validUtf8 k = true
    · simp only [mapDecode, decodeId, hk, if_pos] at h
      cases hmt : mapDecode t with
      | error e => rw [hmt] at h; exact absurd h (by simp)
      | ok xs =>
        rw [hmt] at h
        simp only at h
        injection h with h
        obtain ⟨hxs, hval⟩ := ih hmt
        constructor
        · rw [← h, hxs]
        · intro x hx
          rcases List.mem_cons.mp hx with hx | hx
          · rw [hx]; exact hk
          · exact hval x hx
    · have hk' : validUtf8 k = false := by
        cases hc : validUtf8 k
        · rfl
        · exact absurd hc hk
      simp [mapDecode, decodeId, hk'] at h

theorem mapDecode_error_of_invalid {l : List Bytes} {x : Bytes}
    (hx : x ∈ l) (hv : validUtf8 x = false) :
    mapDecode l = Except.error "invalid_utf8: Parsing swap id" := by
  induction l with
  | nil => simp at hx
  | cons k t ih =>
    by_cases hk : validUtf8 k = true
    · have hxk : x ≠ k := by
        intro h
        rw [h, hk] at hv
        exact absurd hv (by simp)
      have hxt : x ∈ t := by
        rcases List.mem_cons.mp hx with h | h
        · exact absurd h hxk
        · exact h
      simp [mapDecode, decodeId, hk, ih hxt]
    · have hk' : validUtf8 k = false := by
        cases hc : validUtf8 k
        · rfl
        · exact absurd hc hk
      simp [mapDecode, decodeId, hk']

theorem getLast?_mem : ∀ {l : List Bytes} {x : Bytes}, l.getLast? = some x → x ∈ l
  | [], x, h => by simp at h
  | [a], x, h => by
    simp only [List.getLast?_singleton] at h
    injection h with h
    simp [h]
  | a :: b :: t, x, h => by
    rw [List.getLast?_cons_cons] at h
    exact List.mem_cons_of_mem _ (getLast?_mem h)

theorem filter_eq_self_of_all {p : Bytes → Bool} : ∀ {l : List Bytes},
    (∀ y ∈ l, p y = true) → l.filter p = l
  | [], _ => rfl
  | a :: t, h => by
    simp [List.filter_cons, h a (List.mem_cons_self a t),
      filter_eq_self_of_all (fun y hy => h y (List.mem_cons_of_mem _ hy))]

theorem map_fst_filter (p : Bytes → Bool) : ∀ (l : List (Bytes × StoredVal)),
    (l.filter (fun e => p e.1)).map Prod.fst = (l.map Prod.fst).filter p
  | [] => rfl
  | e :: t => by
    by_cases hp : p e.1 = true
    · simp [List.filter_cons, hp, map_fst_filter p t]
    · simp [List.filter_cons, hp, map_fst_filter p t]

theorem filter_lt_of_take_getLast {l : List Bytes}
    (hl : l.Pairwise (fun a b => bytesLt a b = true)) {n : Nat} {x : Bytes}
    (h : (l.take n).getLast? = some x) :
    l.filter (fun y => bytesLt x y) = l.drop n := by
  induction l generalizing n with
  | nil => simp at h
  | cons a t ih =>
    have hhead := (List.pairwise_cons.mp hl).1
    have htail := (List.pairwise_cons.mp hl).2
    cases n with
    | zero => simp at h
    | succ m =>
      simp only [List.take_succ_cons] at h
      by_cases hemp : t.take m = []
      · rw [hemp] at h
        simp only [List.getLast?_singleton] at h
        injection h with h
        subst h
        rw [List.filter_cons]
        simp only [bytesLt_irrefl]
        rcases List.take_eq_nil_iff.mp hemp with hm | ht
        · subst hm
          simp only [List.drop_succ_cons, List.drop_zero]
          exact filter_eq_self_of_all (fun y hy => hhead y hy)
        · subst ht
          simp
      · obtain ⟨b, u, hbu⟩ := List.exists_cons_of_ne_nil hemp
        rw [hbu] at h
        rw [List.getLast?_cons_cons] at h
        have hx : (t.take m).getLast? = some x := by rw [hbu]; exact h
        have hxa : bytesLt x a = false := by
          have hxmem : x ∈ t := (List.take_sublist m t).subset (getLast?_mem hx)
          exact bytesLt_asymm (hhead x hxmem)
        rw [List.filter_cons]
        simp only [hxa]
        simp only [List.drop_succ_cons]
        exact ih htail hx

theorem create_preserves_inv {s : Store}
    (h1 : ∀ id a, getKV s (swapKey id) = some (StoredVal.swap a) →
      getKV s (recipientKey a.recipient id) = some (StoredVal.marker MARKER_VALUE))
    (h2 : ∀ rec id v, getKV s (recipientKey rec id) = some v →
      ∃ a, getKV s (swapKey id) = some (StoredVal.swap a))
    (k : Bytes) (b : AtomicSwap) :
    (∀ id a, getKV (create_atomic_swap s k b) (swapKey id) =
        some (StoredVal.swap a) →
      getKV (create_atomic_swap s k b) (recipientKey a.recipient id) =
        some (StoredVal.marker MARKER_VALUE)) ∧
    (∀ rec id v, getKV (create_atomic_swap s k b) (recipientKey rec id) = some v →
      ∃ a, getKV (create_atomic_swap s k b) (swapKey id) =
        some (StoredVal.swap a)) := by
  constructor
  · intro id a h
    rw [getKV_create, if_neg (swapKey_ne_recipientKey id b.recipient k)] at h
    by_cases hc2 : swapKey id = swapKey k
    · rw [if_pos hc2] at h
      have hba : StoredVal.swap b = StoredVal.swap a := Option.some_inj.mp h
      injection hba with hba
      have hk : id = k := swapKey_inj hc2
      rw [getKV_create, if_pos (by rw [hk, ← hba])]
    · rw [if_neg hc2] at h
      have hmk := h1 id a h
      rw [getKV_create,
        if_neg (fun hc => hc2 (by rw [(recipientKey_inj hc).2])),
        if_neg (fun hc => swapKey_ne_recipientKey k a.recipient id hc.symm)]
      exact hmk
  · intro rec id v h
    rw [getKV_create] at h
    by_cases hc1 : recipientKey rec id = recipientKey b.recipient k
    · refine ⟨b, ?_⟩
      rw [getKV_create, if_neg (swapKey_ne_recipientKey id b.recipient k),
        if_pos (by rw [(recipientKey_inj hc1).2])]
    · rw [if_neg hc1,
        if_neg (fun hc => swapKey_ne_recipientKey k rec id hc.symm)] at h
      obtain ⟨a', ha'⟩ := h2 rec id v h
      by_cases hc2 : swapKey id = swapKey k
      · refine ⟨b, ?_⟩
        rw [getKV_create, if_neg (swapKey_ne_recipientKey id b.recipient k),
          if_pos hc2]
      · refine ⟨a', ?_⟩
        rw [getKV_create, if_neg (swapKey_ne_recipientKey id b.recipient k),
          if_neg hc2]
        exact ha'

theorem runCreates_inv (ops : List (Bytes × AtomicSwap)) {s : Store}
    (h1 : ∀ id a, getKV s (swapKey id) = some (StoredVal.swap a) →
      getKV s (recipientKey a.recipient id) = some (StoredVal.marker MARKER_VALUE))
    (h2 : ∀ rec id v, getKV s (recipientKey rec id) = some v →
      ∃ a, getKV s (swapKey id) = some (StoredVal.swap a)) :
    (∀ id a, getKV (runCreates s ops) (swapKey id) = some (StoredVal.swap a) →
      getKV (runCreates s ops) (recipientKey a.recipient id) =
        some (StoredVal.marker MARKER_VALUE)) ∧
    (∀ rec id v, getKV (runCreates s ops) (recipientKey rec id) = some v →
      ∃ a, getKV (runCreates s ops) (swapKey id) = some (StoredVal.swap a)) := by
  induction ops generalizing s with
  | nil => exact ⟨h1, h2⟩
  | cons p t ih =>
    obtain ⟨k, b⟩ := p
    have hstep := create_preserves_inv h1 h2 k b
    exact ih hstep.1 hstep.2

/-- C1: in every store reachable from the empty store by successful
`create_atomic_swap` calls, every primary row under id `K` has exactly one
recipient-index entry under `(recipient of that swap, K)`, and every
recipient-index entry has a corresponding primary row. -/
theorem create_atomic_swap_index_invariant (ops : List (Bytes × AtomicSwap)) :
    (∀ id a, getKV (runCreates [] ops) (swapKey id) = some (StoredVal.swap a) →
      countKey (runCreates [] ops) (recipientKey a.recipient id) = 1) ∧
    (∀ rec id v, getKV (runCreates [] ops) (recipientKey rec id) = some v →
      ∃ a, getKV (runCreates [] ops) (swapKey id) = some (StoredVal.swap a)) := by
  have hbase1 : ∀ id a, getKV ([] : Store) (swapKey id) =
      some (StoredVal.swap a) →
      getKV ([] : Store) (recipientKey a.recipient id) =
        some (StoredVal.marker MARKER_VALUE) := by
    intro id a h
    simp [getKV] at h
  have hbase2 : ∀ rec id v, getKV ([] : Store) (recipientKey rec id) = some v →
      ∃ a, getKV ([] : Store) (swapKey id) = some (StoredVal.swap a) := by
    intro rec id v h
    simp [getKV] at h
  obtain ⟨hinv1, hinv2⟩ := runCreates_inv ops hbase1 hbase2
  refine ⟨?_, hinv2⟩
  intro id a h
  exact countKey_eq_one
    (storeOrdered_runCreates List.Pairwise.nil ops) (hinv1 id a h)

theorem create_atomic_swap_index_invariant_witness :
    countKey (runCreates [] [([48], wSwap)]) (recipientKey [114] [48]) = 1 ∧
    getKV (runCreates [] [([48], wSwap)]) (swapKey [48]) =
      some (StoredVal.swap wSwap) :=
  ⟨(create_atomic_swap_index_invariant [([48], wSwap)]).1 [48] wSwap (by rfl),
    by rfl⟩

/-- C2: after `create_atomic_swap(K, swap)` succeeds on a (sorted) storage,
loading `K` from the primary swap bucket returns the very swap, and the
Recipient Index holds exactly one entry under `(swap.recipient, K)`. -/
theorem create_then_load {s : Store} (hs : sortedStore s = true) (k : Bytes)
    (a : AtomicSwap) :
    atomic_swaps_read_load (create_atomic_swap s k a) k = some a ∧
    countKey (create_atomic_swap s k a) (recipientKey a.recipient k) = 1 := by
  have ho := storeOrdered_of_sortedStore hs
  constructor
  · unfold atomic_swaps_read_load
    rw [getKV_create, if_neg (swapKey_ne_recipientKey k a.recipient k),
      if_pos rfl]
  · refine countKey_eq_one (storeOrdered_create ho k a)
      (v := StoredVal.marker MARKER_VALUE) ?_
    rw [getKV_create, if_pos rfl]

theorem create_then_load_witness :
    atomic_swaps_read_load (create_atomic_swap [] [97] wSwap) [97] = some wSwap ∧
    countKey (create_atomic_swap [] [97] wSwap)
      (recipientKey wSwap.recipient [97]) = 1 :=
  create_then_load (s := []) (by rfl) [97] wSwap

/-- C8: saving the recipient-index marker twice under the same `(R, K)`
leaves the storage exactly as saving it once, and a repeated
`create_atomic_swap` with identical id and swap leaves the store unchanged
relative to a single call. -/
theorem marker_and_create_idempotent (s : Store) (rec k : Bytes)
    (a : AtomicSwap) :
    setKV (setKV s (recipientKey rec k) (StoredVal.marker MARKER_VALUE))
        (recipientKey rec k) (StoredVal.marker MARKER_VALUE) =
      setKV s (recipientKey rec k) (StoredVal.marker MARKER_VALUE) ∧
    create_atomic_swap (create_atomic_swap s k a) k a =
      create_atomic_swap s k a := by
  refine ⟨setKV_idem _ _ _, ?_⟩
  unfold create_atomic_swap
  have h1 := setKV_comm (setKV s (swapKey k) (StoredVal.swap a))
    (StoredVal.marker MARKER_VALUE) (StoredVal.swap a)
    (show recipientKey a.recipient k ≠ swapKey k from
      fun h => swapKey_ne_recipientKey k a.recipient k h.symm)
  rw [h1, setKV_idem, setKV_idem]

/-- C9: if the primary-table save inside `create_atomic_swap` fails, the
call returns that very error, the recipient-index save is never reached,
and the recipient-index namespace reads exactly as before the call
(provided the failing primary save itself only touches primary keys). -/
theorem create_primary_save_error_short_circuits
    (psave : Store → Bytes → AtomicSwap → Option String × Store)
    (s : Store) (k : Bytes) (a : AtomicSwap) (e : String) (s1 : Store)
    (herr : psave s k a = (some e, s1))
    (hns : ∀ rec id, getKV s1 (recipientKey rec id) =
      getKV s (recipientKey rec id)) :
    create_atomic_swap_with psave s k a = (some e, s1) ∧
    ∀ rec id, getKV (create_atomic_swap_with psave s k a).2
      (recipientKey rec id) = getKV s (recipientKey rec id) := by
  have h1 : create_atomic_swap_with psave s k a = (some e, s1) := by
    unfold create_atomic_swap_with
    rw [herr]
  refine ⟨h1, fun rec id => ?_⟩
  rw [h1]
  exact hns rec id

theorem create_primary_save_error_short_circuits_witness :
    create_atomic_swap_with (fun s _ _ => (some "write failed", s)) [] [97] wSwap
      = (some "write failed", []) :=
  (create_primary_save_error_short_circuits
    (fun s _ _ => (some "write failed", s)) [] [97] wSwap "write failed" []
    rfl (fun _ _ => rfl)).1

/-- C6: the length-prefixed Primary Table namespace and the Recipient Index
namespaces are mutually prefix-free for every recipient and id, so a range
over the Primary Table namespace never yields a key written by the
Recipient Index, and a range over one recipient's index bucket never
yields a key written for a different recipient or by the Primary Table. -/
theorem namespaces_prefix_free :
    (∀ rec id, (to_length_prefixed PREFIX_SWAP).isPrefixOf
      (recipientKey rec id) = false) ∧
    (∀ rec id, (recipientNs rec).isPrefixOf (swapKey id) = false) ∧
    (∀ rec rec' id, rec ≠ rec' →
      (recipientNs rec).isPrefixOf (recipientKey rec' id) = false) ∧
    (∀ s st e, e ∈ rangeKeys s (to_length_prefixed PREFIX_SWAP) st →
      ∀ rec id, to_length_prefixed PREFIX_SWAP ++ e.1 ≠ recipientKey rec id) ∧
    (∀ s st rec e, e ∈ rangeKeys s (recipientNs rec) st →
      (∀ id, recipientNs rec ++ e.1 ≠ swapKey id) ∧
      (∀ rec' id, rec' ≠ rec → recipientNs rec ++ e.1 ≠ recipientKey rec' id)) := by
  refine ⟨swapNs_not_isPrefixOf_recipientKey,
    recipientNs_not_isPrefixOf_swapKey,
    fun rec rec' id h => recipientNs_not_isPrefixOf_recipientKey id h, ?_, ?_⟩
  · intro s st e he rec id hc
    have := isPrefixOf_append (to_length_prefixed PREFIX_SWAP) e.1
    rw [hc, swapNs_not_isPrefixOf_recipientKey] at this
    exact Bool.false_ne_true this
  · intro s st rec e he
    constructor
    · intro id hc
      have := isPrefixOf_append (recipientNs rec) e.1
      rw [hc, recipientNs_not_isPrefixOf_swapKey] at this
      exact Bool.false_ne_true this
    · intro rec' id hne hc
      have := isPrefixOf_append (recipientNs rec) e.1
      rw [hc, recipientNs_not_isPrefixOf_recipientKey id
        (fun h => hne h.symm)] at this
      exact Bool.false_ne_true this

theorem namespaces_prefix_free_witness :
    (recipientNs [48]).isPrefixOf (recipientKey [49] [97]) = false ∧
    (to_length_prefixed PREFIX_SWAP).isPrefixOf (recipientKey [48] [97]) = false :=
  ⟨namespaces_prefix_free.2.2.1 [48] [49] [97] (by decide),
    namespaces_prefix_free.1 [48] [97]⟩

theorem map_fst_rangeKeys_mem {s : Store} {ns : Bytes} {st : Option Bytes}
    {x : Bytes} :
    x ∈ (rangeKeys s ns st).map Prod.fst ↔ ∃ v, (x, v) ∈ rangeKeys s ns st := by
  constructor
  · intro h
    obtain ⟨e, he, hex⟩ := List.mem_map.mp h
    refine ⟨e.2, ?_⟩
    rw [← hex]
    simpa using he
  · rintro ⟨v, hv⟩
    exact List.mem_map_of_mem Prod.fst hv

theorem primary_ids_after_creates (ops : List (Bytes × AtomicSwap))
    (hnd : (idsOf ops).Nodup) :
    (rangeKeys (runCreates [] ops) (to_length_prefixed PREFIX_SWAP) none).map
      Prod.fst = sortIds (idsOf ops) := by
  have ho : storeOrdered (runCreates [] ops) :=
    storeOrdered_runCreates List.Pairwise.nil ops
  refine sorted_eq_of_mem (List.pairwise_map.mpr (rangeKeys_pairwise ho _ none))
    (pairwise_sortIds _) ?_
  intro x
  rw [mem_sortIds]
  constructor
  · intro h
    obtain ⟨v, hv⟩ := map_fst_rangeKeys_mem.mp h
    have hmem := (mem_rangeKeys.mp hv).1
    have hget : getKV (runCreates [] ops) (swapKey x) = some v :=
      getKV_of_mem ho hmem
    rcases getKV_runCreates_swap_inv hget with ⟨a, hva, hmem'⟩ | hbase
    · exact List.mem_map_of_mem Prod.fst hmem'
    · simp [getKV] at hbase
  · intro h
    obtain ⟨p, hp, hpx⟩ := List.mem_map.mp h
    obtain ⟨k0, a0⟩ := p
    subst hpx
    have hget := getKV_runCreates_swap_mem hnd hp ([] : Store)
    have hmem : (swapKey k0, StoredVal.swap a0) ∈ runCreates [] ops :=
      mem_of_getKV hget
    exact List.mem_map_of_mem Prod.fst
      ((@mem_rangeKeys _ _ none _ _).mpr ⟨hmem, rfl⟩)

/-- C4 (amended): after any sequence of `create_atomic_swap` calls with
distinct, valid-UTF-8 ids on the empty store, `all_swap_ids(None, limit)`
returns exactly the created ids, in strict ascending byte-lexicographic
order on the raw key bytes, truncated to at most `limit` entries. -/
theorem all_swap_ids_lists_sorted (ops : List (Bytes × AtomicSwap))
    (limit : Nat) (hnd : (idsOf ops).Nodup)
    (hutf : ∀ id ∈ idsOf ops, validUtf8 id = true) :
    all_swap_ids (runCreates [] ops) none limit =
      Except.ok ((sortIds (idsOf ops)).take limit) ∧
    (sortIds (idsOf ops)).Pairwise (fun a b => bytesLt a b = true) ∧
    ∀ x, x ∈ sortIds (idsOf ops) ↔ x ∈ idsOf ops := by
  have hids := primary_ids_after_creates ops hnd
  refine ⟨?_, pairwise_sortIds _, fun x => mem_sortIds⟩
  unfold all_swap_ids
  rw [List.map_take, hids]
  refine mapDecode_ok_of_valid ?_
  intro x hx
  have hx' : x ∈ sortIds (idsOf ops) := List.take_subset _ _ hx
  exact hutf x (mem_sortIds.mp hx')

theorem all_swap_ids_lists_sorted_witness :
    all_swap_ids (runCreates [] [([98], wSwap), ([97], wSwap2)]) none 10 =
      Except.ok [[97], [98]] :=
  (all_swap_ids_lists_sorted [([98], wSwap), ([97], wSwap2)] 10
    (by decide) (by decide)).1

/-- C4 as literally stated fails when a created id is not valid UTF-8: with
a single create of the distinct id `0xFF`, the listing does not return the
created ids but fails with the invalid-UTF-8 decode error. -/
theorem all_swap_ids_nonutf8_cex :
    (idsOf [([255], wSwap)]).Nodup ∧
    (sortIds (idsOf [([255], wSwap)])).take 1 = [[255]] ∧
    all_swap_ids (runCreates [] [([255], wSwap)]) none 1 =
      Except.error "invalid_utf8: Parsing swap id" :=
  ⟨by decide, by rfl, by rfl⟩

/-- C5: ranging over one recipient's index bucket lists exactly the ids of
the swaps created with that recipient, in ascending byte order of id, and
no id created under any other recipient. -/
theorem recipient_index_range_exact (ops : List (Bytes × AtomicSwap))
    (R : Bytes) (hnd : (idsOf ops).Nodup) :
    (atomic_swaps_recipient_index_range (runCreates [] ops) R none).map
      Prod.fst =
      sortIds (idsOf (ops.filter (fun p => decide (p.2.recipient = R)))) := by
  have ho : storeOrdered (runCreates [] ops) :=
    storeOrdered_runCreates List.Pairwise.nil ops
  refine sorted_eq_of_mem (List.pairwise_map.mpr (rangeKeys_pairwise ho _ none))
    (pairwise_sortIds _) ?_
  intro x
  rw [mem_sortIds]
  constructor
  · intro h
    obtain ⟨v, hv⟩ := map_fst_rangeKeys_mem.mp h
    have hmem := (mem_rangeKeys.mp hv).1
    have hget : getKV (runCreates [] ops) (recipientKey R x) = some v :=
      getKV_of_mem ho hmem
    rcases getKV_runCreates_marker_inv hget with ⟨a, har, hmem', hv'⟩ | hbase
    · refine List.mem_map_of_mem Prod.fst (List.mem_filter.mpr ⟨hmem', ?_⟩)
      simp [har]
    · simp [getKV] at hbase
  · intro h
    obtain ⟨p, hp, hpx⟩ := List.mem_map.mp h
    obtain ⟨k0, a0⟩ := p
    subst hpx
    have hfil := List.mem_filter.mp hp
    have har : a0.recipient = R := by simpa using hfil.2
    have hget := getKV_runCreates_marker_mem hnd hfil.1 ([] : Store)
    rw [har] at hget
    have hmem : (recipientKey R k0, StoredVal.marker MARKER_VALUE) ∈
        runCreates [] ops := mem_of_getKV hget
    exact List.mem_map_of_mem Prod.fst
      ((@mem_rangeKeys _ _ none _ _).mpr ⟨hmem, rfl⟩)

theorem recipient_index_range_exact_witness :
    (atomic_swaps_recipient_index_range
        (runCreates [] [([0], wSwap), ([1], wSwap2), ([2], wSwap2)]) [116]
        none).map Prod.fst = [[1], [2]] := by
  rw [recipient_index_range_exact [([0], wSwap), ([1], wSwap2), ([2], wSwap2)]
    [116] (by decide)]
  rfl

/-- C3: pagination composes: when `all_swap_ids(None, N + M)` succeeds with
sequence `L` on a sorted store, `all_swap_ids(None, N)` returns the first
`N` entries of `L`, and resuming from the last id of that first page with
limit `M` returns exactly the remaining entries of `L` — same ordered
sequence, no duplicates, no gaps. -/
theorem all_swap_ids_paginates {s : Store} (hs : sortedStore s = true)
    (N M : Nat) {L : List Bytes}
    (h : all_swap_ids s none (N + M) = Except.ok L) :
    all_swap_ids s none N = Except.ok (L.take N) ∧
    ∀ x, (L.take N).getLast? = some x →
      all_swap_ids s (some x) M = Except.ok (L.drop N) := by
  have ho := storeOrdered_of_sortedStore hs
  have hidsp : ((rangeKeys s (to_length_prefixed PREFIX_SWAP) none).map
      Prod.fst).Pairwise (fun a b => bytesLt a b = true) :=
    List.pairwise_map.mpr (rangeKeys_pairwise ho _ none)
  unfold all_swap_ids at h
  rw [List.map_take] at h
  obtain ⟨hL, hval⟩ := mapDecode_ok_inv h
  have htakeN : L.take N =
      ((rangeKeys s (to_length_prefixed PREFIX_SWAP) none).map Prod.fst).take
        N := by
    rw [hL, List.take_take, Nat.min_eq_left (Nat.le_add_right N M)]
  have hdropN : L.drop N =
      (((rangeKeys s (to_length_prefixed PREFIX_SWAP) none).map
        Prod.fst).drop N).take M := by
    rw [hL, List.drop_take, Nat.add_sub_cancel_left]
  constructor
  · unfold all_swap_ids
    rw [List.map_take, ← htakeN]
    refine mapDecode_ok_of_valid ?_
    intro y hy
    refine hval y ?_
    rw [htakeN] at hy
    have h1 : ((rangeKeys s (to_length_prefixed PREFIX_SWAP) none).map
        Prod.fst).take N =
        (((rangeKeys s (to_length_prefixed PREFIX_SWAP) none).map
          Prod.fst).take (N + M)).take N := by
      rw [List.take_take, Nat.min_eq_left (Nat.le_add_right N M)]
    rw [h1] at hy
    exact List.take_subset _ _ hy
  · intro x hx
    rw [htakeN] at hx
    have hfil := filter_lt_of_take_getLast hidsp hx
    unfold all_swap_ids
    rw [List.map_take, rangeKeys_some_eq_filter, map_fst_filter, hfil,
      ← hdropN]
    refine mapDecode_ok_of_valid ?_
    intro y hy
    refine hval y ?_
    have h2 : (((rangeKeys s (to_length_prefixed PREFIX_SWAP) none).map
        Prod.fst).drop N).take M =
        (((rangeKeys s (to_length_prefixed PREFIX_SWAP) none).map
          Prod.fst).take (N + M)).drop N := by
      rw [List.drop_take, Nat.add_sub_cancel_left]
    rw [hdropN, h2] at hy
    exact List.drop_subset _ _ hy

theorem all_swap_ids_paginates_witness :
    all_swap_ids wStore none 1 = Except.ok [[97]] ∧
    all_swap_ids wStore (some [97]) 1 = Except.ok [[98]] := by
  have h := all_swap_ids_paginates (s := wStore) (by rfl) 1 1
    (L := [[97], [98]]) (by rfl)
  exact ⟨h.1, h.2 [97] (by rfl)⟩

/-- C7 (amended): if any key among the first `limit` primary-table keys
strictly after `start` (from the beginning when `start` is absent) is not
valid UTF-8, `all_swap_ids` fails the whole call with the invalid-UTF-8
decode error instead of skipping the key or returning a partial list. -/
theorem all_swap_ids_invalid_in_window_errors {s : Store}
    {start : Option Bytes} {limit : Nat} {k : Bytes × StoredVal}
    (hk : k ∈ (rangeKeys s (to_length_prefixed PREFIX_SWAP) start).take limit)
    (hv : validUtf8 k.1 = false) :
    all_swap_ids s start limit =
      Except.error "invalid_utf8: Parsing swap id" := by
  unfold all_swap_ids
  exact mapDecode_error_of_invalid (List.mem_map_of_mem Prod.fst hk) hv

theorem all_swap_ids_invalid_in_window_errors_witness :
    all_swap_ids cex7Store none 1 =
      Except.error "invalid_utf8: Parsing swap id" :=
  all_swap_ids_invalid_in_window_errors
    (k := ([255], StoredVal.swap wSwap)) (by decide) (by decide)

/-- C7 as literally stated ("at or after `start`") fails: ranges resume
strictly after `start`, so a non-UTF-8 primary key equal to `start` itself
is outside the scanned window and the call succeeds with an empty page
instead of failing with a decode error. -/
theorem all_swap_ids_invalid_at_start_cex :
    getKV cex7Store (swapKey [255]) = some (StoredVal.swap wSwap) ∧
    validUtf8 [255] = false ∧
    all_swap_ids cex7Store (some [255]) 1 = Except.ok [] :=
  ⟨by rfl, by rfl, by rfl⟩

/-- C10 (amended): the limit is applied before decoding: whenever the first
`limit` primary-table keys strictly after `start` (from the beginning when
`start` is absent) are all valid UTF-8, the call succeeds — keys beyond the
returned window can never cause a decode error. -/
theorem all_swap_ids_limit_before_decode {s : Store} {start : Option Bytes}
    {limit : Nat}
    (h : ∀ k ∈ (rangeKeys s (to_length_prefixed PREFIX_SWAP) start).take limit,
      validUtf8 k.1 = true) :
    all_swap_ids s start limit =
      Except.ok (((rangeKeys s (to_length_prefixed PREFIX_SWAP) start).take
        limit).map Prod.fst) := by
  unfold all_swap_ids
  refine mapDecode_ok_of_valid ?_
  intro x hx
  obtain ⟨e, he, hex⟩ := List.mem_map.mp hx
  exact hex ▸ h e he

theorem all_swap_ids_limit_before_decode_witness :
    validUtf8 [255] = false ∧
    getKV w10Store (swapKey [255]) = some (StoredVal.swap wSwap) ∧
    all_swap_ids w10Store none 1 = Except.ok [[97]] :=
  ⟨by rfl, by rfl, all_swap_ids_limit_before_decode (by decide)⟩

/-- C10 as literally stated ("at or after `start`") fails: the primary keys
of `w10Store` are `[97]` and `[255]`, so the first key at or after `[97]`
is the valid id `[97]` itself and the claim's hypothesis holds at limit 1;
yet the scan resumes strictly after `start`, decodes `[255]` instead, and
the whole call errors. -/
theorem all_swap_ids_at_or_after_window_cex :
    (rangeKeys w10Store (to_length_prefixed PREFIX_SWAP) none).map Prod.fst =
      [[97], [255]] ∧
    validUtf8 [97] = true ∧
    all_swap_ids w10Store (some [97]) 1 =
      Except.error "invalid_utf8: Parsing swap id" :=
  ⟨by rfl, by rfl, by rfl⟩
